import Mathlib

set_option linter.unusedSectionVars false

/-!
Shallow embedding of the netlistx-cpp primal-dual covering core
(`include/netlistx/cover.hpp`, `graph_algo.hpp`, `netlist_algo.hpp`)
together with proofs checking the natural-language specification of the
library against the code.  Node and net handles are modelled by an
arbitrary type with decidable equality (instantiated at `Nat` in the
concrete examples); the numeric cost type (`mapped_type`, `int` in the
tests) is modelled by `Int`; `py::set` is modelled by duplicate-free
lists built with `insertS`; `py::dict` by association lists; weight and
gap maps by functions updated pointwise.
-/

namespace Netlistx

variable {V : Type} [DecidableEq V]

/-- `py::set::insert`: insert an element into a set modelled as a
duplicate-free list; a no-op when the element is already present. -/
def insertS (s : List V) (a : V) : List V :=
  if a ∈ s then s else a :: s

/-- Pointwise update of a map modelled as a function (`gap[v] = x`). -/
def upd (g : V → ℤ) (v : V) (x : ℤ) : V → ℤ :=
  fun y => if y = v then x else g y

/-- The mutable state threaded through `pd_cover`: the gap map (dual
slack), the solution set, and the accumulated primal and dual costs. -/
structure PdState (V : Type) where
  gap : V → ℤ
  soln : List V
  primal : ℤ
  dual : ℤ

/-- `std::min_element` over `x :: xs` with comparator
`gap v1 < gap v2`: keeps the current best and replaces it only on a
strictly smaller gap, hence returns the first element attaining the
minimum gap. -/
def minElement (gap : V → ℤ) (x : V) (xs : List V) : V :=
  xs.foldl (fun m y => if gap y < gap m then y else m) x

/-- One iteration of the `pd_cover` loop (cover.hpp lines 41-57): skip
an empty violating set; otherwise pick the minimum-gap member, insert it
into the solution, add its weight to the primal total and its gap to the
dual total, and subtract its gap from every member of the set. -/
def pdStep (weight : V → ℤ) (st : PdState V) (S : List V) : PdState V :=
  match S with
  | [] => st
  | x :: xs =>
    let minVtx := minElement st.gap x xs
    let minVal := st.gap minVtx
    { gap := (x :: xs).foldl (fun g v => upd g v (g v - minVal)) st.gap
      soln := insertS st.soln minVtx
      primal := st.primal + weight minVtx
      dual := st.dual + minVal }

/-- `pd_cover` (cover.hpp lines 28-61).  The C++ range-for evaluates
`violate()` exactly once, so the function is modelled over the
materialized list of violating sets produced by that single invocation;
the gap map starts as a copy of the weight map and the two cost totals
start at zero. -/
def pd_cover (sets : List (List V)) (weight : V → ℤ) (soln : List V) :
    PdState V :=
  sets.foldl (pdStep weight) ⟨weight, soln, 0, 0⟩

/-- The violation producer of `min_vertex_cover` (cover.hpp lines
83-98): every edge with neither endpoint in the current cover set, as
the two-element list `[utx, vtx]`. -/
def violate_graph (edges : List (V × V)) (coverset : List V) :
    List (List V) :=
  edges.filterMap fun e =>
    if e.1 ∈ coverset ∨ e.2 ∈ coverset then none else some [e.1, e.2]

/-- `min_vertex_cover` (cover.hpp lines 74-101): `pd_cover` applied to
the uncovered edges of the graph, materialized once against the initial
cover set. -/
def min_vertex_cover (edges : List (V × V)) (weight : V → ℤ)
    (coverset : List V) : PdState V :=
  pd_cover (violate_graph edges coverset) weight coverset

/-- State of `min_vertex_cover_fast`: gap map, cover set, and the two
cost totals. -/
structure FastState (V : Type) where
  gap : V → ℤ
  cover : List V
  primal : ℤ
  dual : ℤ

/-- One iteration of the edge loop of `min_vertex_cover_fast`
(graph_algo.hpp lines 36-53): skip an edge with a covered endpoint;
otherwise swap the endpoints so the inserted one has the smaller gap,
insert it, charge its gap to the dual and its weight to the primal,
subtract its gap from the other endpoint's gap and zero its own gap. -/
def fastStep (weight : V → ℤ) (st : FastState V) (e : V × V) :
    FastState V :=
  if e.1 ∈ st.cover ∨ e.2 ∈ st.cover then st
  else
    let p := if st.gap e.1 < st.gap e.2 then (e.2, e.1) else (e.1, e.2)
    let g1 := upd st.gap p.1 (st.gap p.1 - st.gap p.2)
    { gap := upd g1 p.2 0
      cover := insertS st.cover p.2
      primal := st.primal + weight p.2
      dual := st.dual + st.gap p.2 }

/-- `min_vertex_cover_fast` (graph_algo.hpp lines 21-57): a single
forward pass over the edges in their enumeration order. -/
def min_vertex_cover_fast (edges : List (V × V)) (weight : V → ℤ)
    (coverset : List V) : FastState V :=
  edges.foldl (fastStep weight) ⟨weight, coverset, 0, 0⟩

/-- An undirected graph as consumed by `graph_algo.hpp` and the BFS
cycle finder: an iterable node list and a neighbor list per node
(`ugraph[u]`). -/
structure UGraph (V : Type) where
  nodes : List V
  adj : V → List V

/-- State of `min_maximal_independant_set`: gap map, independent set,
dependent set, and the two cost totals. -/
structure MisState (V : Type) where
  gap : V → ℤ
  ind : List V
  dep : List V
  primal : ℤ
  dual : ℤ

/-- The argmin scan of `min_maximal_independant_set` (graph_algo.hpp
lines 117-129): starting from `(utx, gap[utx])`, replace the candidate
whenever a non-dependent neighbor has a strictly smaller gap. -/
def misMin (gap : V → ℤ) (dep : List V) (u : V) (nbrs : List V) :
    V × ℤ :=
  nbrs.foldl
    (fun m v =>
      if v ∈ dep then m
      else if m.2 > gap v then (v, gap v) else m)
    (u, gap u)

/-- One iteration of the node loop of `min_maximal_independant_set`
(graph_algo.hpp lines 109-144): skip dependent or pre-selected nodes;
otherwise select the minimum-gap vertex among the node and its
non-dependent neighbors, insert it into the independent set, mark it and
all its neighbors dependent, charge its weight/gap, and (when the
selected vertex differs from the scanned node) subtract the selected gap
from every neighbor of the scanned node. -/
def misStep (g : UGraph V) (weight : V → ℤ) (st : MisState V) (u : V) :
    MisState V :=
  if u ∈ st.dep then st
  else if u ∈ st.ind then st
  else
    let m := misMin st.gap st.dep u (g.adj u)
    let ind1 := insertS st.ind m.1
    let dep1 := (g.adj m.1).foldl insertS (insertS st.dep m.1)
    if m.1 = u then
      ⟨st.gap, ind1, dep1, st.primal + weight m.1, st.dual + m.2⟩
    else
      ⟨(g.adj u).foldl (fun h v => upd h v (h v - m.2)) st.gap,
        ind1, dep1, st.primal + weight m.1, st.dual + m.2⟩

/-- `min_maximal_independant_set` (graph_algo.hpp lines 86-148). -/
def min_maximal_independant_set (g : UGraph V) (weight : V → ℤ)
    (indset dep : List V) : MisState V :=
  g.nodes.foldl (misStep g weight) ⟨weight, indset, dep, 0, 0⟩

/-- A hypergraph (netlist) as consumed by `netlist_algo.hpp`: the net
list `hyprgraph.nets`, the member nodes of a net `hyprgraph.gr[net]`,
and the nets incident to a node `hyprgraph.gr[v]`. -/
structure Hypergraph (V : Type) where
  nets : List V
  mem : V → List V
  inc : V → List V

/-- State of `min_maximal_matching`: gap map over nets, match set of
nets, dependent set of nodes, and the two cost totals. -/
structure MmState (V : Type) where
  gap : V → ℤ
  matchset : List V
  dep : List V
  primal : ℤ
  dual : ℤ

/-- The `cover` lambda of `min_maximal_matching` (netlist_algo.hpp lines
93-97): mark every member node of a net dependent. -/
def mmCover (h : Hypergraph V) (dep : List V) (net : V) : List V :=
  (h.mem net).foldl insertS dep

/-- The argmin scan of `min_maximal_matching` (netlist_algo.hpp lines
120-132): over the net itself and every net reached through one of its
member nodes, skipping nets that already have a dependent member. -/
def mmMin (h : Hypergraph V) (gap : V → ℤ) (dep : List V) (net : V) :
    V × ℤ :=
  (h.mem net).foldl
    (fun acc v =>
      (h.inc v).foldl
        (fun m net2 =>
          if (h.mem net2).any (fun w => w ∈ dep) then m
          else if m.2 > gap net2 then (net2, gap net2) else m)
        acc)
    (net, gap net)

/-- One iteration of the net loop of `min_maximal_matching`
(netlist_algo.hpp lines 112-145): skip a net with a dependent member;
for a pre-seeded net, only mark its members dependent; otherwise select
the minimum-gap candidate net, mark its members dependent, insert it,
charge its weight/gap, and (when it differs from the scanned net)
subtract the selected gap from the scanned net's gap and from the gap of
every net reached through the scanned net's members. -/
def mmStep (h : Hypergraph V) (weight : V → ℤ) (st : MmState V)
    (net : V) : MmState V :=
  if (h.mem net).any (fun w => w ∈ st.dep) then st
  else if net ∈ st.matchset then
    { st with dep := mmCover h st.dep net }
  else
    let m := mmMin h st.gap st.dep net
    let dep1 := mmCover h st.dep m.1
    let match1 := insertS st.matchset m.1
    if m.1 = net then
      ⟨st.gap, match1, dep1, st.primal + weight m.1, st.dual + m.2⟩
    else
      let g1 := upd st.gap net (st.gap net - m.2)
      ⟨(h.mem net).foldl
          (fun g v => (h.inc v).foldl
            (fun g2 net2 => upd g2 net2 (g2 net2 - m.2)) g) g1,
        match1, dep1, st.primal + weight m.1, st.dual + m.2⟩

/-- `min_maximal_matching` (netlist_algo.hpp lines 89-148). -/
def min_maximal_matching (h : Hypergraph V) (weight : V → ℤ)
    (matchset dep : List V) : MmState V :=
  h.nets.foldl (mmStep h weight) ⟨weight, matchset, dep, 0, 0⟩

/-- The BFS bookkeeping dictionary `py::dict<Node, BFSInfo<Node>>` as an
association list `node ↦ (parent, depth)`; fresh keys are consed to the
front and `lookupInfo` returns the first binding. -/
abbrev Info (V : Type) : Type := List (V × V × ℤ)

/-- Dictionary lookup (`info.at` / `info.contains`). -/
def lookupInfo (info : Info V) (x : V) : Option (V × ℤ) :=
  match info.find? (fun e => decide (e.1 = x)) with
  | some e => some e.2
  | none => none

/-- The depth recorded for a node, defaulting to 0 for missing keys
(every use in the algorithms is on a present key). -/
def depthOf (info : Info V) (x : V) : ℤ :=
  match lookupInfo info x with
  | some pd => pd.2
  | none => 0

/-- Executable check of one BFS-table entry: either it is the seed of
its tree (its own parent, recorded at depth `n`, the node count) or its
parent is in the table and its depth is exactly one less than the
parent's recorded depth. -/
def entryOk (n : ℤ) (info : Info V) (e : V × V × ℤ) : Bool :=
  (decide (e.2.1 = e.1) && decide (e.2.2 = n)) ||
    (match lookupInfo info e.2.1 with
     | some pd => decide (e.2.2 = pd.2 - 1)
     | none => false)

/-- Executable check that every entry of a BFS table satisfies
`entryOk`: the table is a BFS tree seeded at depth `n` whose recorded
depth decreases by exactly 1 per edge. -/
def infoInv (n : ℤ) (info : Info V) : Bool :=
  info.all (entryOk n info)

/-- The inner child loop of `_generic_bfs_cycle` (cover.hpp lines
289-308): skip covered children; record a fresh child with the current
node as parent and depth one less, appending it to the queue; skip an
edge back to the node's own parent (`succ`); and otherwise stop, having
found a cycle witness.  Returns either the updated dictionary and queue
or the witness child together with the dictionary as it stands at that
moment. -/
def scanChildren (coverset : List V) (succ parent : V) (depthNow : ℤ) :
    List V → Info V → List V → (Info V × List V) ⊕ (Info V × V)
  | [], info, q => Sum.inl (info, q)
  | c :: cs, info, q =>
    if c ∈ coverset then scanChildren coverset succ parent depthNow cs info q
    else if (lookupInfo info c).isSome then
      if succ = c then scanChildren coverset succ parent depthNow cs info q
      else Sum.inr (info, c)
    else
      scanChildren coverset succ parent depthNow cs
        ((c, parent, depthNow - 1) :: info) (q ++ [c])

/-- The queue loop of `_generic_bfs_cycle` (cover.hpp lines 281-309),
with explicit fuel standing in for the implicit bound on queue pops (a
node enters the queue at most once).  Returns the first cycle witness
`(info, parent, child)` or `none` when the queue is exhausted. -/
def bfsLoop (g : UGraph V) (coverset : List V) :
    ℕ → List V → Info V → Option (Info V × V × V)
  | 0, _, _ => none
  | _ + 1, [], _ => none
  | fuel + 1, p :: q, info =>
    match lookupInfo info p with
    | none => none
    | some sd =>
      match scanChildren coverset sd.1 p sd.2 (g.adj p) info q with
      | Sum.inl iq => bfsLoop g coverset fuel iq.2 iq.1
      | Sum.inr ic => some (ic.1, p, ic.2)

/-- `_generic_bfs_cycle` (cover.hpp lines 258-313): run a fresh BFS from
every node outside the cover set, seeding the dictionary with the source
mapped to itself at depth `number_of_nodes`, and return the first cycle
witness found across the whole traversal (the C++ returns a vector that
holds at most this one tuple). -/
def _generic_bfs_cycle (g : UGraph V) (coverset : List V) :
    Option (Info V × V × V) :=
  go g.nodes
where
  /-- Source loop of `_generic_bfs_cycle`. -/
  go : List V → Option (Info V × V × V)
    | [] => none
    | s :: rest =>
      if s ∈ coverset then go rest
      else
        match bfsLoop g coverset (g.nodes.length + 1) [s]
            [(s, s, (g.nodes.length : ℤ))] with
        | some r => some r
        | none => go rest

/-- Phase 1 of `_construct_cycle` (cover.hpp lines 223-228): while
`depth_a < depth_b`, append `node_a` and advance to its parent; note the
C++ updates `depth_a` to the depth recorded for the node just appended
(the binding `next_info` refers to the old `node_a`), so the test lags
one node behind.  Fuel stands in for the implicit termination bound;
`none` models non-termination or a missing key. -/
def walkUp (info : Info V) :
    ℕ → V → ℤ → ℤ → List V → Option (V × List V)
  | 0, _, _, _, _ => none
  | fuel + 1, a, da, db, acc =>
    if da < db then
      match lookupInfo info a with
      | none => none
      | some pd => walkUp info fuel pd.1 pd.2 db (acc ++ [a])
    else some (a, acc)

/-- Phase 2 of `_construct_cycle` (cover.hpp lines 231-243): while the
two nodes differ, append one and prepend the other and advance both to
their parents; finally prepend the meeting node once. -/
def walkBoth (info : Info V) :
    ℕ → V → V → List V → Option (List V)
  | 0, _, _, _ => none
  | fuel + 1, a, b, acc =>
    if a = b then some (b :: acc)
    else
      match lookupInfo info a, lookupInfo info b with
      | some pa, some pb =>
        walkBoth info fuel pa.1 pb.1 (b :: (acc ++ [a]))
      | _, _ => none

/-- `_construct_cycle` (cover.hpp lines 196-244): order the witness
endpoints so `node_a` carries the smaller (deeper) recorded depth, walk
phase 1 then phase 2.  The fuel `2 * info.length + 2` dominates both
loops whenever they terminate in the C++. -/
def _construct_cycle (info : Info V) (parent child : V) :
    Option (List V) :=
  match lookupInfo info parent, lookupInfo info child with
  | some ip, some ic =>
    let a := if ip.2 < ic.2 then (parent, ip.2, child, ic.2)
             else (child, ic.2, parent, ip.2)
    match walkUp info (2 * info.length + 2) a.1 a.2.1 a.2.2.2 [] with
    | none => none
    | some s => walkBoth info (2 * info.length + 2) s.1 a.2.2.1 s.2
  | _, _ => none

/-- Modelled from the spec: the reconstruction walk as section 4.6 of
the spec describes it, for comparison with `_construct_cycle` as the
code implements it.  The deeper endpoint is walked up its parent chain,
appending visited nodes, until its depth equals the other endpoint's;
then both chains are walked outward in lock-step, appending from one
side and prepending from the other, until they converge on a common
ancestor, which is prepended exactly once. -/
def constructCycleSpec (info : Info V) (parent child : V) :
    Option (List V) :=
  match lookupInfo info parent, lookupInfo info child with
  | some ip, some ic =>
    let a := if ip.2 < ic.2 then (parent, ip.2, child, ic.2)
             else (child, ic.2, parent, ip.2)
    match specUp (2 * info.length + 2) a.1 a.2.1 a.2.2.2 [] with
    | none => none
    | some s => walkBoth info (2 * info.length + 2) s.1 a.2.2.1 s.2
  | _, _ => none
where
  /-- Walk up the parent chain until the depth of the current node
  equals the target depth, appending each node left behind. -/
  specUp : ℕ → V → ℤ → ℤ → List V → Option (V × List V)
    | 0, _, _, _, _ => none
    | fuel + 1, a, da, db, acc =>
      if da < db then
        match lookupInfo info a with
        | none => none
        | some pd =>
          match lookupInfo info pd.1 with
          | none => none
          | some pd2 => specUp fuel pd.1 pd2.2 db (acc ++ [a])
      else some (a, acc)

/-- The violation producer of `min_cycle_cover` (cover.hpp lines
335-357): one `_generic_bfs_cycle` invocation; its witness, when found,
is reconstructed and yielded as the single violating set (the C++ loop
breaks after the first cycle). -/
def cycleViolate (g : UGraph V) (coverset : List V) : List (List V) :=
  match _generic_bfs_cycle g coverset with
  | none => []
  | some w =>
    match _construct_cycle w.1 w.2.1 w.2.2 with
    | none => []
    | some cyc => [cyc]

/-- `min_cycle_cover` (cover.hpp lines 326-360). -/
def min_cycle_cover (g : UGraph V) (weight : V → ℤ)
    (coverset : List V) : PdState V :=
  pd_cover (cycleViolate g coverset) weight coverset

/-- The violation producer of `min_odd_cycle_cover` (cover.hpp lines
394-421): like `cycleViolate`, but the witness is accepted only when
`(depth[parent] - depth[child]) % 2 == 0`. -/
def oddCycleViolate (g : UGraph V) (coverset : List V) :
    List (List V) :=
  match _generic_bfs_cycle g coverset with
  | none => []
  | some w =>
    if (depthOf w.1 w.2.1 - depthOf w.1 w.2.2) % 2 = 0 then
      match _construct_cycle w.1 w.2.1 w.2.2 with
      | none => []
      | some cyc => [cyc]
    else []

/-- `min_odd_cycle_cover` (cover.hpp lines 385-424). -/
def min_odd_cycle_cover (g : UGraph V) (weight : V → ℤ)
    (coverset : List V) : PdState V :=
  pd_cover (oddCycleViolate g coverset) weight coverset

/-- Neighbor list derived from an edge list; symmetric by
construction (used to build concrete undirected graphs). -/
def adjOf (edges : List (V × V)) (u : V) : List V :=
  edges.filterMap fun e =>
    if e.1 = u then some e.2 else if e.2 = u then some e.1 else none

/-! Concrete instances used by the claim checks. -/

/-- The path graph 0-1-2-3-4. -/
def pathG : UGraph ℕ :=
  ⟨[0, 1, 2, 3, 4], fun v =>
    if v = 0 then [1] else if v = 1 then [0, 2] else if v = 2 then [1, 3]
    else if v = 3 then [2, 4] else if v = 4 then [3] else []⟩

/-- Nonnegative weights 5, 1, 1, 5, 3 on the path graph. -/
def pathW : ℕ → ℤ := fun v =>
  if v = 0 then 5 else if v = 1 then 1 else if v = 2 then 1
  else if v = 3 then 5 else if v = 4 then 3 else 0

/-- The single-edge graph 0-1. -/
def edgeG : UGraph ℕ :=
  ⟨[0, 1], fun v => if v = 0 then [1] else if v = 1 then [0] else []⟩

/-- Weights 2, 1 on the single-edge graph. -/
def edgeW : ℕ → ℤ := fun v => if v = 0 then 2 else 1

/-- A netlist on nodes 0..5 with nets 10..14 (net 10 = nodes 0,1,2;
net 11 = node 0; net 12 = nodes 1,2; net 13 = nodes 1,3,4,5;
net 14 = nodes 3,4,5), scanned in the order 10, 13, 14, 11, 12. -/
def mmH : Hypergraph ℕ :=
  ⟨[10, 13, 14, 11, 12],
    fun n =>
      if n = 10 then [0, 1, 2] else if n = 11 then [0]
      else if n = 12 then [1, 2] else if n = 13 then [1, 3, 4, 5]
      else if n = 14 then [3, 4, 5] else [],
    fun v =>
      if v = 0 then [10, 11] else if v = 1 then [10, 12, 13]
      else if v = 2 then [10, 12] else if v = 3 then [13, 14]
      else if v = 4 then [13, 14] else if v = 5 then [13, 14] else []⟩

/-- Net weights for `mmH`: 2 on net 10, 1 elsewhere. -/
def mmW : ℕ → ℤ := fun n => if n = 10 then 2 else 1

/-- Two nets 20 and 21 sharing the single node 7. -/
def mmH2 : Hypergraph ℕ :=
  ⟨[20, 21],
    fun n => if n = 20 then [7] else if n = 21 then [7] else [],
    fun v => if v = 7 then [20, 21] else []⟩

/-- Net weights for `mmH2`: 5 on net 20, 1 on net 21. -/
def mmW2 : ℕ → ℤ := fun n => if n = 20 then 5 else 1

/-- The BFS table of the spec's reconstruction example: parent chain
1 to 0, 2 to 1, 3 to 2 with depths 4, 3, 2, 1. -/
def chainInfo : Info ℕ := [(0, 0, 4), (1, 0, 3), (2, 1, 2), (3, 2, 1)]

/-- Two disjoint triangles 0-1-2 and 3-4-5. -/
def twoTri : UGraph ℕ :=
  ⟨[0, 1, 2, 3, 4, 5], fun v =>
    if v = 0 then [1, 2] else if v = 1 then [0, 2]
    else if v = 2 then [0, 1] else if v = 3 then [4, 5]
    else if v = 4 then [3, 5] else if v = 5 then [3, 4] else []⟩

/-- The triangle graph 0-1-2. -/
def triG : UGraph ℕ :=
  ⟨[0, 1, 2], fun v =>
    if v = 0 then [1, 2] else if v = 1 then [0, 2]
    else if v = 2 then [0, 1] else []⟩

/-- The four-cycle (square) graph 0-1-2-3-0. -/
def sqG : UGraph ℕ :=
  ⟨[0, 1, 2, 3], fun v =>
    if v = 0 then [1, 3] else if v = 1 then [0, 2]
    else if v = 2 then [1, 3] else if v = 3 then [0, 2] else []⟩

/-- Unit weights. -/
def unitW : ℕ → ℤ := fun _ => 1

/-- Edge list of the triangle 0-1-2. -/
def triEdges : List (ℕ × ℕ) := [(0, 1), (1, 2), (2, 0)]

/-- The triangle graph with its adjacency derived from `triEdges`
(symmetric by construction). -/
def triE : UGraph ℕ := ⟨[0, 1, 2], adjOf triEdges⟩

/-- The edge list of the path 0-1-2. -/
def pathE3 : List (ℕ × ℕ) := [(0, 1), (1, 2)]

/-- Weights 1, 2, 1 on the path 0-1-2. -/
def fastW1 : ℕ → ℤ := fun v => if v = 0 then 1 else if v = 1 then 2 else 1

/-- Weights 3, 1, 2 on the path 0-1-2. -/
def fastW2 : ℕ → ℤ := fun v => if v = 0 then 3 else if v = 1 then 1 else 2

/-! Basic lemmas about the set and map helpers. -/

theorem mem_insertS {s : List V} {a x : V} :
    x ∈ insertS s a ↔ x = a ∨ x ∈ s := by
  unfold insertS
  split
  · rename_i h
    constructor
    · exact Or.inr
    · rintro (rfl | hx)
      · exact h
      · exact hx
  · exact List.mem_cons

theorem mem_insertS_self (s : List V) (a : V) : a ∈ insertS s a :=
  mem_insertS.mpr (Or.inl rfl)

theorem mem_insertS_of_mem {s : List V} {x : V} (a : V) (h : x ∈ s) :
    x ∈ insertS s a :=
  mem_insertS.mpr (Or.inr h)

theorem mem_foldl_insertS {x : V} :
    ∀ (l : List V) (s : List V),
      x ∈ l.foldl insertS s ↔ x ∈ s ∨ x ∈ l := by
  intro l
  induction l with
  | nil => intro s; simp
  | cons a t ih =>
    intro s
    rw [List.foldl_cons, ih, mem_insertS]
    simp only [List.mem_cons]
    tauto

theorem upd_self (g : V → ℤ) (v : V) (x : ℤ) : upd g v x v = x := by
  simp [upd]

theorem upd_other (g : V → ℤ) {v y : V} (x : ℤ) (h : y ≠ v) :
    upd g v x y = g y := by
  simp [upd, h]

theorem foldl_gapSub (δ : ℤ) :
    ∀ (l : List V), l.Nodup → ∀ (g : V → ℤ) (x : V),
      (l.foldl (fun h v => upd h v (h v - δ)) g) x =
        if x ∈ l then g x - δ else g x := by
  intro l
  induction l with
  | nil =>
    intro _ g x
    simp
  | cons a t ih =>
    intro hnd g x
    rw [List.foldl_cons, ih (List.Nodup.of_cons hnd)]
    by_cases hx : x = a
    · subst hx
      have hxt : x ∉ t := (List.nodup_cons.mp hnd).1
      simp [hxt, upd_self]
    · rw [upd_other _ _ hx]
      simp [hx]

/-! Lemmas about the argmin scan `minElement` (std::min_element). -/

theorem minElement_mem (gap : V → ℤ) (xs : List V) :
    ∀ (x : V), minElement gap x xs ∈ x :: xs := by
  induction xs with
  | nil =>
    intro x
    simp [minElement]
  | cons y ys ih =>
    intro x
    have h1 : minElement gap x (y :: ys)
        = minElement gap (if gap y < gap x then y else x) ys := by
      simp [minElement, List.foldl_cons]
    rw [h1]
    have h2 := ih (if gap y < gap x then y else x)
    rw [List.mem_cons] at h2
    rcases h2 with h2 | h2
    · rw [h2]
      by_cases hc : gap y < gap x
      · simp [hc]
      · simp [hc]
    · simp [h2]

theorem minElement_le (gap : V → ℤ) (xs : List V) :
    ∀ (x y : V), y ∈ x :: xs → gap (minElement gap x xs) ≤ gap y := by
  induction xs with
  | nil =>
    intro x y hy
    rw [List.mem_singleton] at hy
    subst hy
    simp [minElement]
  | cons z zs ih =>
    intro x y hy
    have h1 : minElement gap x (z :: zs)
        = minElement gap (if gap z < gap x then z else x) zs := by
      simp [minElement, List.foldl_cons]
    rw [h1]
    by_cases hzx : gap z < gap x
    · rw [if_pos hzx]
      rcases List.mem_cons.mp hy with rfl | hy2
      · exact le_trans (ih z z (List.mem_cons_self z zs)) (le_of_lt hzx)
      · rcases List.mem_cons.mp hy2 with rfl | hy3
        · exact ih y y (List.mem_cons_self y zs)
        · exact ih z y (List.mem_cons_of_mem z hy3)
    · rw [if_neg hzx]
      rcases List.mem_cons.mp hy with rfl | hy2
      · exact ih y y (List.mem_cons_self y zs)
      · rcases List.mem_cons.mp hy2 with rfl | hy3
        · exact le_trans (ih x x (List.mem_cons_self x zs)) (not_lt.mp hzx)
        · exact ih x y (List.mem_cons_of_mem x hy3)

theorem minElement_first (gap : V → ℤ) (xs : List V) :
    ∀ (x : V), ∃ l₁ l₂, x :: xs = l₁ ++ minElement gap x xs :: l₂ ∧
      ∀ y ∈ l₁, gap (minElement gap x xs) < gap y := by
  induction xs with
  | nil =>
    intro x
    exact ⟨[], [], by simp [minElement], by simp⟩
  | cons z zs ih =>
    intro x
    by_cases hzx : gap z < gap x
    · have h1 : minElement gap x (z :: zs) = minElement gap z zs := by
        simp [minElement, List.foldl_cons, hzx]
      obtain ⟨l₁, l₂, hd, hl⟩ := ih z
      refine ⟨x :: l₁, l₂, ?_, ?_⟩
      · rw [h1, List.cons_append, ← hd]
      · intro y hy
        rw [h1]
        rcases List.mem_cons.mp hy with rfl | hy2
        · exact lt_of_le_of_lt
            (minElement_le gap zs z z (List.mem_cons_self z zs)) hzx
        · exact hl y hy2
    · have h1 : minElement gap x (z :: zs) = minElement gap x zs := by
        simp [minElement, List.foldl_cons, hzx]
      obtain ⟨l₁, l₂, hd, hl⟩ := ih x
      cases l₁ with
      | nil =>
        simp only [List.nil_append] at hd
        have hx : minElement gap x zs = x := (List.cons.injEq _ _ _ _ ▸ hd).1.symm
        refine ⟨[], z :: zs, ?_, by simp⟩
        rw [h1, hx, List.nil_append]
      | cons a l₁t =>
        rw [List.cons_append] at hd
        have ha : a = x := ((List.cons.injEq _ _ _ _).mp hd).1.symm
        have hzs : zs = l₁t ++ minElement gap x zs :: l₂ :=
          ((List.cons.injEq _ _ _ _).mp hd).2
        subst ha
        refine ⟨a :: z :: l₁t, l₂, ?_, ?_⟩
        · rw [h1, List.cons_append, List.cons_append, ← hzs]
        · intro y hy
          rw [h1]
          rcases List.mem_cons.mp hy with rfl | hy2
          · exact hl y (List.mem_cons_self y l₁t)
          · rcases List.mem_cons.mp hy2 with rfl | hy3
            · exact lt_of_lt_of_le
                (hl a (List.mem_cons_self a l₁t)) (not_lt.mp hzx)
            · exact hl y (List.mem_cons_of_mem a hy3)

/-! Claim theorems. -/

/-- C9: `min_vertex_cover_fast` on the path 0-1-2 (edges (0,1), (1,2) in
that order) returns the cover set 0, 2 with total primal cost 2 under
weights 1, 2, 1, and the cover set 1 with total primal cost 1 under
weights 3, 1, 2, following the per-edge smaller-gap insertion rule. -/
theorem fast_vertex_cover_path_examples :
    (min_vertex_cover_fast pathE3 fastW1 []).cover.toFinset
        = ({0, 2} : Finset ℕ) ∧
    (min_vertex_cover_fast pathE3 fastW1 []).primal = 2 ∧
    (min_vertex_cover_fast pathE3 fastW2 []).cover.toFinset
        = ({1} : Finset ℕ) ∧
    (min_vertex_cover_fast pathE3 fastW2 []).primal = 1 ∧
    (min_vertex_cover_fast pathE3 fastW1 []).dual
        = (min_vertex_cover_fast pathE3 fastW1 []).primal := by
  refine ⟨by decide, by decide, by decide, by decide, by decide⟩

/-- C1, failing input: on the netlist `mmH` with weights `mmW` and empty
pre-seeded sets, `min_maximal_matching` accumulates a total dual cost of
4 against a total primal cost of 3, so the weak-duality certificate
`total_dual_cost ≤ total_primal_cost` fails after this run (the
corresponding assertion is commented out in netlist_algo.hpp line
146). -/
theorem matching_dual_exceeds_primal :
    (min_maximal_matching mmH mmW [] []).primal = 3 ∧
    (min_maximal_matching mmH mmW [] []).dual = 4 ∧
    ¬ (min_maximal_matching mmH mmW [] []).dual
        ≤ (min_maximal_matching mmH mmW [] []).primal := by
  refine ⟨by decide, by decide, by decide⟩

/-- C2, counterexample: the cycle producer itself yields violating sets
with repeated members — on the 4-cycle it yields `[0, 3, 2, 1, 0]`, with
the BFS source 0 appearing twice — and on such a set the `pd_cover` step
subtracts the selected gap once per occurrence, so the selected member 0
(the first minimum-gap member) ends with gap -1, not 0. -/
theorem pd_cover_duplicate_set_gap_negative :
    cycleViolate sqG [] = [[0, 3, 2, 1, 0]] ∧
    minElement unitW 0 [3, 2, 1, 0] = 0 ∧
    (min_cycle_cover sqG unitW []).gap 0 = -1 ∧
    (min_cycle_cover sqG unitW []).gap 0 ≠ 0 := by
  refine ⟨by decide, by decide, by decide, by decide⟩

/-- C2, amended: for a non-empty violating set `S` *without repeated
members*, the `pd_cover` step selects the first member of `S` attaining
the minimum gap, inserts it into the solution set, adds its weight to
the primal total and its gap to the dual total, subtracts its gap from
the gap of every member of `S` (zeroing its own gap) and leaves all
other gaps unchanged; an empty violating set is skipped with no effect.
(The gap loop subtracts once per occurrence, so on a set with repeated
members — which the cycle producer can yield — the selected member's gap
ends negative instead of 0, as the counterexample shows.) -/
theorem pd_cover_step_behavior (weight : V → ℤ) (st : PdState V)
    (S : List V) (hne : S ≠ []) (hnd : S.Nodup) :
    pdStep weight st [] = st ∧
    ∃ v l₁ l₂, S = l₁ ++ v :: l₂ ∧
      (∀ y ∈ S, st.gap v ≤ st.gap y) ∧
      (∀ y ∈ l₁, st.gap v < st.gap y) ∧
      (pdStep weight st S).soln = insertS st.soln v ∧
      (pdStep weight st S).primal = st.primal + weight v ∧
      (pdStep weight st S).dual = st.dual + st.gap v ∧
      (∀ x ∈ S, (pdStep weight st S).gap x = st.gap x - st.gap v) ∧
      (∀ x, x ∉ S → (pdStep weight st S).gap x = st.gap x) ∧
      (pdStep weight st S).gap v = 0 := by
  obtain ⟨x, xs, rfl⟩ := List.exists_cons_of_ne_nil hne
  refine ⟨rfl, minElement st.gap x xs, ?_⟩
  obtain ⟨l₁, l₂, hd, hl⟩ := minElement_first st.gap xs x
  have hgap : ∀ z, (pdStep weight st (x :: xs)).gap z =
      if z ∈ x :: xs then st.gap z - st.gap (minElement st.gap x xs)
      else st.gap z := by
    intro z
    show ((x :: xs).foldl (fun g v => upd g v
        (g v - st.gap (minElement st.gap x xs))) st.gap) z = _
    exact foldl_gapSub _ _ hnd _ _
  refine ⟨l₁, l₂, hd, minElement_le st.gap xs x, hl, rfl, rfl, rfl,
    ?_, ?_, ?_⟩
  · intro z hz
    rw [hgap z, if_pos hz]
  · intro z hz
    rw [hgap z, if_neg hz]
  · rw [hgap _, if_pos (minElement_mem st.gap xs x), sub_self]

/-- Witness for C2 at the concrete set `[0, 1]` with unit weights. -/
theorem pd_cover_step_behavior_witness :
    pdStep unitW ⟨unitW, [], 0, 0⟩ [] = ⟨unitW, [], 0, 0⟩ ∧
    ∃ v l₁ l₂, [0, 1] = l₁ ++ v :: l₂ ∧
      (∀ y ∈ [0, 1], unitW v ≤ unitW y) ∧
      (∀ y ∈ l₁, unitW v < unitW y) ∧
      (pdStep unitW ⟨unitW, [], 0, 0⟩ [0, 1]).soln = insertS [] v ∧
      (pdStep unitW ⟨unitW, [], 0, 0⟩ [0, 1]).primal = 0 + unitW v ∧
      (pdStep unitW ⟨unitW, [], 0, 0⟩ [0, 1]).dual = 0 + unitW v ∧
      (∀ x ∈ [0, 1],
        (pdStep unitW ⟨unitW, [], 0, 0⟩ [0, 1]).gap x = unitW x - unitW v) ∧
      (∀ x, x ∉ [0, 1] →
        (pdStep unitW ⟨unitW, [], 0, 0⟩ [0, 1]).gap x = unitW x) ∧
      (pdStep unitW ⟨unitW, [], 0, 0⟩ [0, 1]).gap v = 0 :=
  pd_cover_step_behavior unitW ⟨unitW, [], 0, 0⟩ [0, 1]
    (by decide) (by decide)

/-! Solution-set monotonicity and hitting lemmas for `pd_cover` and the
fast vertex cover, supporting C3. -/

theorem pdStep_soln_mono (weight : V → ℤ) (st : PdState V) (S : List V)
    {v : V} (h : v ∈ st.soln) : v ∈ (pdStep weight st S).soln := by
  cases S with
  | nil => exact h
  | cons x xs => exact mem_insertS_of_mem _ h

theorem pdRun_soln_mono (weight : V → ℤ) :
    ∀ (sets : List (List V)) (st : PdState V) {v : V},
      v ∈ st.soln → v ∈ (sets.foldl (pdStep weight) st).soln := by
  intro sets
  induction sets with
  | nil => intro st v h; exact h
  | cons S ts ih =>
    intro st v h
    rw [List.foldl_cons]
    exact ih _ (pdStep_soln_mono _ _ _ h)

theorem pdRun_hits (weight : V → ℤ) :
    ∀ (sets : List (List V)) (st : PdState V) (S : List V),
      S ∈ sets → S ≠ [] →
      ∃ v, v ∈ S ∧ v ∈ (sets.foldl (pdStep weight) st).soln := by
  intro sets
  induction sets with
  | nil =>
    intro st S h
    cases h
  | cons T ts ih =>
    intro st S hS hne
    rcases List.mem_cons.mp hS with rfl | hS2
    · obtain ⟨x, xs, rfl⟩ := List.exists_cons_of_ne_nil hne
      refine ⟨minElement st.gap x xs, minElement_mem st.gap xs x, ?_⟩
      rw [List.foldl_cons]
      exact pdRun_soln_mono weight ts _ (mem_insertS_self _ _)
    · rw [List.foldl_cons]
      exact ih _ S hS2 hne

theorem fastStep_cover_mono (weight : V → ℤ) (st : FastState V)
    (e : V × V) {v : V} (h : v ∈ st.cover) :
    v ∈ (fastStep weight st e).cover := by
  unfold fastStep
  split
  · exact h
  · exact mem_insertS_of_mem _ h

theorem fastRun_cover_mono (weight : V → ℤ) :
    ∀ (edges : List (V × V)) (st : FastState V) {v : V},
      v ∈ st.cover → v ∈ (edges.foldl (fastStep weight) st).cover := by
  intro edges
  induction edges with
  | nil => intro st v h; exact h
  | cons a t ih =>
    intro st v h
    rw [List.foldl_cons]
    exact ih _ (fastStep_cover_mono _ _ _ h)

theorem fastStep_covers (weight : V → ℤ) (st : FastState V) (e : V × V) :
    e.1 ∈ (fastStep weight st e).cover ∨
    e.2 ∈ (fastStep weight st e).cover := by
  by_cases h : e.1 ∈ st.cover ∨ e.2 ∈ st.cover
  · rcases h with h | h
    · exact Or.inl (fastStep_cover_mono weight st e h)
    · exact Or.inr (fastStep_cover_mono weight st e h)
  · by_cases hg : st.gap e.1 < st.gap e.2
    · left
      simp only [fastStep, if_neg h, if_pos hg]
      exact mem_insertS_self _ _
    · right
      simp only [fastStep, if_neg h, if_neg hg]
      exact mem_insertS_self _ _

theorem fastRun_covers (weight : V → ℤ) :
    ∀ (edges : List (V × V)) (st : FastState V) (e : V × V), e ∈ edges →
      e.1 ∈ (edges.foldl (fastStep weight) st).cover ∨
      e.2 ∈ (edges.foldl (fastStep weight) st).cover := by
  intro edges
  induction edges with
  | nil =>
    intro st e h
    cases h
  | cons a t ih =>
    intro st e he
    rcases List.mem_cons.mp he with rfl | he2
    · rw [List.foldl_cons]
      rcases fastStep_covers weight st e with h | h
      · exact Or.inl (fastRun_cover_mono weight t _ h)
      · exact Or.inr (fastRun_cover_mono weight t _ h)
    · rw [List.foldl_cons]
      exact ih _ e he2

/-- C3: the solution set returned by `pd_cover` contains a member of
every non-empty violating set the producer yielded; consequently the
cover returned by `min_vertex_cover` (with any pre-seeded cover set)
contains an endpoint of every edge, and so does the cover returned by
`min_vertex_cover_fast`. -/
theorem vertex_cover_feasible (weight : V → ℤ) :
    (∀ (sets : List (List V)) (soln : List V) (S : List V),
      S ∈ sets → S ≠ [] →
      ∃ v, v ∈ S ∧ v ∈ (pd_cover sets weight soln).soln) ∧
    (∀ (edges : List (V × V)) (coverset : List V) (e : V × V),
      e ∈ edges →
      e.1 ∈ (min_vertex_cover edges weight coverset).soln ∨
      e.2 ∈ (min_vertex_cover edges weight coverset).soln) ∧
    (∀ (edges : List (V × V)) (coverset : List V) (e : V × V),
      e ∈ edges →
      e.1 ∈ (min_vertex_cover_fast edges weight coverset).cover ∨
      e.2 ∈ (min_vertex_cover_fast edges weight coverset).cover) := by
  refine ⟨?_, ?_, ?_⟩
  · intro sets soln S hS hne
    exact pdRun_hits weight sets _ S hS hne
  · intro edges coverset e he
    by_cases hcov : e.1 ∈ coverset ∨ e.2 ∈ coverset
    · rcases hcov with h | h
      · exact Or.inl (pdRun_soln_mono weight _ _ h)
      · exact Or.inr (pdRun_soln_mono weight _ _ h)
    · have hmem : [e.1, e.2] ∈ violate_graph edges coverset := by
        rw [violate_graph, List.mem_filterMap]
        exact ⟨e, he, by rw [if_neg hcov]⟩
      obtain ⟨v, hv, hvs⟩ :=
        pdRun_hits weight (violate_graph edges coverset) _ _ hmem
          (by simp)
      rcases List.mem_cons.mp hv with rfl | hv2
      · exact Or.inl hvs
      · rcases List.mem_cons.mp hv2 with rfl | hv3
        · exact Or.inr hvs
        · cases hv3
  · intro edges coverset e he
    exact fastRun_covers weight edges _ e he

/-- Witness for C3 on the path 0-1-2 and the singleton producer
output. -/
theorem vertex_cover_feasible_witness :
    (∃ v, v ∈ [0, 1] ∧ v ∈ (pd_cover [[0, 1]] unitW []).soln) ∧
    (0 ∈ (min_vertex_cover pathE3 unitW []).soln ∨
      1 ∈ (min_vertex_cover pathE3 unitW []).soln) ∧
    (0 ∈ (min_vertex_cover_fast pathE3 unitW []).cover ∨
      1 ∈ (min_vertex_cover_fast pathE3 unitW []).cover) :=
  ⟨(vertex_cover_feasible unitW).1 [[0, 1]] [] [0, 1] (by decide)
      (by decide),
    (vertex_cover_feasible unitW).2.1 pathE3 [] (0, 1) (by decide),
    (vertex_cover_feasible unitW).2.2 pathE3 [] (0, 1) (by decide)⟩

/-! Support for the amended C5. -/

theorem insertS_length (s : List V) (a : V) :
    (insertS s a).length ≤ s.length + 1 := by
  unfold insertS
  split
  · exact Nat.le_succ _
  · exact le_refl _

theorem pdStep_soln_length (weight : V → ℤ) (st : PdState V)
    (S : List V) :
    (pdStep weight st S).soln.length ≤ st.soln.length + 1 := by
  cases S with
  | nil => exact Nat.le_succ _
  | cons x xs => exact insertS_length _ _

/-- C5, amended: the cycle-cover producers are materialized from a
single invocation that yields at most one violating cycle (found by one
fresh BFS against the solution set as it stands at that invocation), so
one call of `min_cycle_cover` or `min_odd_cycle_cover` grows the
solution set by at most one node. -/
theorem cycle_producer_single_invocation (g : UGraph V) (cs : List V)
    (weight : V → ℤ) :
    (cycleViolate g cs).length ≤ 1 ∧
    (oddCycleViolate g cs).length ≤ 1 ∧
    (min_cycle_cover g weight cs).soln.length ≤ cs.length + 1 ∧
    (min_odd_cycle_cover g weight cs).soln.length ≤ cs.length + 1 := by
  have hcyc : cycleViolate g cs = [] ∨
      ∃ cyc, cycleViolate g cs = [cyc] := by
    cases hb : _generic_bfs_cycle g cs with
    | none => left; simp [cycleViolate, hb]
    | some w =>
      cases hc : _construct_cycle w.1 w.2.1 w.2.2 with
      | none => left; simp [cycleViolate, hb, hc]
      | some cyc =>
        right
        exact ⟨cyc, by simp [cycleViolate, hb, hc]⟩
  have hodd : oddCycleViolate g cs = [] ∨
      ∃ cyc, oddCycleViolate g cs = [cyc] := by
    cases hb : _generic_bfs_cycle g cs with
    | none => left; simp [oddCycleViolate, hb]
    | some w =>
      by_cases hp : (depthOf w.1 w.2.1 - depthOf w.1 w.2.2) % 2 = 0
      · cases hc : _construct_cycle w.1 w.2.1 w.2.2 with
        | none => left; simp [oddCycleViolate, hb, hc, hp]
        | some cyc =>
          right
          exact ⟨cyc, by simp [oddCycleViolate, hb, hc, hp]⟩
      · left
        simp [oddCycleViolate, hb, hp]
  refine ⟨?_, ?_, ?_, ?_⟩
  · rcases hcyc with h | ⟨cyc, h⟩ <;> simp [h]
  · rcases hodd with h | ⟨cyc, h⟩ <;> simp [h]
  · rcases hcyc with h | ⟨cyc, h⟩
    · simp [min_cycle_cover, pd_cover, h]
    · rw [min_cycle_cover, pd_cover, h, List.foldl_cons, List.foldl_nil]
      exact pdStep_soln_length weight ⟨weight, cs, 0, 0⟩ cyc
  · rcases hodd with h | ⟨cyc, h⟩
    · simp [min_odd_cycle_cover, pd_cover, h]
    · rw [min_odd_cycle_cover, pd_cover, h, List.foldl_cons,
        List.foldl_nil]
      exact pdStep_soln_length weight ⟨weight, cs, 0, 0⟩ cyc

/-- C10, amended: when the scan reaches a net already in the pre-seeded
match set with no member yet dependent, the step only marks the net's
members dependent — the gap map, the match set and both cost totals are
untouched; nevertheless the returned cost can include the weight of a
pre-seeded net, because a pre-seeded net may still be chosen as the
minimum-gap alternative while scanning a different net (as on `mmH2`,
where the whole returned cost is the pre-seeded net's weight). -/
theorem matching_preseed_skip (h : Hypergraph V) (weight : V → ℤ)
    (st : MmState V) (net : V) (hmem : net ∈ st.matchset)
    (hdep : ((h.mem net).any fun w => decide (w ∈ st.dep)) = false) :
    mmStep h weight st net = { st with dep := mmCover h st.dep net } ∧
    (min_maximal_matching mmH2 mmW2 [21] []).primal = mmW2 21 ∧
    (min_maximal_matching mmH2 mmW2 [21] []).matchset = [21] := by
  refine ⟨?_, by decide, by decide⟩
  simp [mmStep, hdep, hmem]

/-- Witness for the amended C10 at the pre-seeded net 21 of `mmH2`. -/
theorem matching_preseed_skip_witness :
    mmStep mmH2 mmW2 ⟨mmW2, [21], [], 0, 0⟩ 21 =
      { gap := mmW2, matchset := [21],
        dep := mmCover mmH2 [] 21, primal := 0, dual := 0 } ∧
    (min_maximal_matching mmH2 mmW2 [21] []).primal = mmW2 21 ∧
    (min_maximal_matching mmH2 mmW2 [21] []).matchset = [21] :=
  matching_preseed_skip mmH2 mmW2 ⟨mmW2, [21], [], 0, 0⟩ 21
    (by decide) (by decide)

/-- C4, counterexample: running `min_maximal_independant_set` on the
path 0-1-2-3-4 with the nonnegative weights 5, 1, 1, 5, 3 drives the gap
of the dependent node 2 down to -2, so gap values do become negative. -/
theorem mis_gap_goes_negative :
    (min_maximal_independant_set pathG pathW [] []).gap 2 = -2 ∧
    (min_maximal_independant_set pathG pathW [] []).gap 2 < 0 := by
  refine ⟨by decide, by decide⟩

/-! Gap invariants for the amended C4. -/

theorem pdStep_gap_inv (weight : V → ℤ) (st : PdState V) (S : List V)
    (hnd : S.Nodup)
    (hinv : ∀ x, 0 ≤ st.gap x ∧ st.gap x ≤ weight x) :
    (∀ x, 0 ≤ (pdStep weight st S).gap x ∧
      (pdStep weight st S).gap x ≤ weight x) ∧
    (∀ x, (pdStep weight st S).gap x ≤ st.gap x) := by
  cases S with
  | nil => exact ⟨hinv, fun x => le_refl _⟩
  | cons a xs =>
    have hδ : 0 ≤ st.gap (minElement st.gap a xs) :=
      (hinv (minElement st.gap a xs)).1
    have hgap : ∀ z, (pdStep weight st (a :: xs)).gap z =
        if z ∈ a :: xs then st.gap z - st.gap (minElement st.gap a xs)
        else st.gap z := by
      intro z
      show ((a :: xs).foldl (fun g v => upd g v
          (g v - st.gap (minElement st.gap a xs))) st.gap) z = _
      exact foldl_gapSub _ _ hnd _ _
    constructor
    · intro x
      rw [hgap x]
      split
      · rename_i hx
        have h1 := minElement_le st.gap xs a x hx
        have h2 := (hinv x).2
        omega
      · exact hinv x
    · intro x
      rw [hgap x]
      split
      · omega
      · exact le_refl _

theorem pdRun_gap_inv (weight : V → ℤ) :
    ∀ (sets : List (List V)) (st : PdState V),
      (∀ S ∈ sets, S.Nodup) →
      (∀ x, 0 ≤ st.gap x ∧ st.gap x ≤ weight x) →
      (∀ x, 0 ≤ (sets.foldl (pdStep weight) st).gap x ∧
        (sets.foldl (pdStep weight) st).gap x ≤ weight x) ∧
      (∀ x, (sets.foldl (pdStep weight) st).gap x ≤ st.gap x) := by
  intro sets
  induction sets with
  | nil =>
    intro st _ hinv
    exact ⟨hinv, fun x => le_refl _⟩
  | cons S ts ih =>
    intro st hnd hinv
    have hstep := pdStep_gap_inv weight st S
      (hnd S (List.mem_cons_self S ts)) hinv
    have hrest := ih (pdStep weight st S)
      (fun T hT => hnd T (List.mem_cons_of_mem S hT)) hstep.1
    rw [List.foldl_cons]
    exact ⟨hrest.1, fun x => le_trans (hrest.2 x) (hstep.2 x)⟩

theorem fast_pair_inv (weight : V → ℤ) (hw : ∀ x, 0 ≤ weight x)
    (gap : V → ℤ) (u v : V) (huv : gap v ≤ gap u)
    (hinv : ∀ x, 0 ≤ gap x ∧ gap x ≤ weight x) :
    ∀ x, (0 ≤ upd (upd gap u (gap u - gap v)) v 0 x ∧
        upd (upd gap u (gap u - gap v)) v 0 x ≤ weight x) ∧
      upd (upd gap u (gap u - gap v)) v 0 x ≤ gap x := by
  intro x
  by_cases hxv : x = v
  · subst hxv
    rw [upd_self]
    exact ⟨⟨le_refl _, hw x⟩, (hinv x).1⟩
  · rw [upd_other _ _ hxv]
    by_cases hxu : x = u
    · subst hxu
      rw [upd_self]
      have h1 := (hinv x).2
      have h2 := (hinv v).1
      constructor
      · constructor
        · omega
        · omega
      · omega
    · rw [upd_other _ _ hxu]
      exact ⟨hinv x, le_refl _⟩

theorem fastStep_gap_inv (weight : V → ℤ) (hw : ∀ x, 0 ≤ weight x)
    (st : FastState V) (e : V × V)
    (hinv : ∀ x, 0 ≤ st.gap x ∧ st.gap x ≤ weight x) :
    (∀ x, 0 ≤ (fastStep weight st e).gap x ∧
      (fastStep weight st e).gap x ≤ weight x) ∧
    (∀ x, (fastStep weight st e).gap x ≤ st.gap x) := by
  by_cases hcov : e.1 ∈ st.cover ∨ e.2 ∈ st.cover
  · simp only [fastStep, if_pos hcov]
    exact ⟨hinv, fun x => le_refl _⟩
  · by_cases hg : st.gap e.1 < st.gap e.2
    · simp only [fastStep, if_neg hcov, if_pos hg]
      have h := fast_pair_inv weight hw st.gap e.2 e.1 (le_of_lt hg) hinv
      exact ⟨fun x => (h x).1, fun x => (h x).2⟩
    · simp only [fastStep, if_neg hcov, if_neg hg]
      have h := fast_pair_inv weight hw st.gap e.1 e.2 (not_lt.mp hg) hinv
      exact ⟨fun x => (h x).1, fun x => (h x).2⟩

theorem fastRun_gap_inv (weight : V → ℤ) (hw : ∀ x, 0 ≤ weight x) :
    ∀ (edges : List (V × V)) (st : FastState V),
      (∀ x, 0 ≤ st.gap x ∧ st.gap x ≤ weight x) →
      (∀ x, 0 ≤ (edges.foldl (fastStep weight) st).gap x ∧
        (edges.foldl (fastStep weight) st).gap x ≤ weight x) ∧
      (∀ x, (edges.foldl (fastStep weight) st).gap x ≤ st.gap x) := by
  intro edges
  induction edges with
  | nil =>
    intro st hinv
    exact ⟨hinv, fun x => le_refl _⟩
  | cons a t ih =>
    intro st hinv
    have hstep := fastStep_gap_inv weight hw st a hinv
    have hrest := ih (fastStep weight st a) hstep.1
    rw [List.foldl_cons]
    exact ⟨hrest.1, fun x => le_trans (hrest.2 x) (hstep.2 x)⟩

theorem misMin_fold (gap : V → ℤ) (dep : List V) :
    ∀ (l : List V) (acc : V × ℤ),
      acc.2 = gap acc.1 → acc.1 ∉ dep →
      (l.foldl (fun m v => if v ∈ dep then m
        else if m.2 > gap v then (v, gap v) else m) acc).2 =
        gap (l.foldl (fun m v => if v ∈ dep then m
          else if m.2 > gap v then (v, gap v) else m) acc).1 ∧
      (l.foldl (fun m v => if v ∈ dep then m
        else if m.2 > gap v then (v, gap v) else m) acc).1 ∉ dep ∧
      ((l.foldl (fun m v => if v ∈ dep then m
        else if m.2 > gap v then (v, gap v) else m) acc).1 = acc.1 ∨
        (l.foldl (fun m v => if v ∈ dep then m
          else if m.2 > gap v then (v, gap v) else m) acc).1 ∈ l) ∧
      (l.foldl (fun m v => if v ∈ dep then m
        else if m.2 > gap v then (v, gap v) else m) acc).2 ≤ acc.2 ∧
      (∀ v ∈ l, v ∉ dep →
        (l.foldl (fun m v => if v ∈ dep then m
          else if m.2 > gap v then (v, gap v) else m) acc).2 ≤ gap v) := by
  intro l
  induction l with
  | nil =>
    intro acc h1 h2
    refine ⟨h1, h2, Or.inl rfl, le_refl _, ?_⟩
    intro v hv
    cases hv
  | cons a t ih =>
    intro acc h1 h2
    rw [List.foldl_cons]
    by_cases ha : a ∈ dep
    · rw [if_pos ha]
      obtain ⟨k1, k2, k3, k4, k5⟩ := ih acc h1 h2
      refine ⟨k1, k2, ?_, k4, ?_⟩
      · rcases k3 with k3 | k3
        · exact Or.inl k3
        · exact Or.inr (List.mem_cons_of_mem a k3)
      · intro v hv hvd
        rcases List.mem_cons.mp hv with rfl | hv2
        · exact absurd ha hvd
        · exact k5 v hv2 hvd
    · rw [if_neg ha]
      by_cases hlt : acc.2 > gap a
      · rw [if_pos hlt]
        obtain ⟨k1, k2, k3, k4, k5⟩ := ih (a, gap a) rfl ha
        refine ⟨k1, k2, ?_, ?_, ?_⟩
        · rcases k3 with k3 | k3
          · exact Or.inr (k3 ▸ List.mem_cons_self a t)
          · exact Or.inr (List.mem_cons_of_mem a k3)
        · exact le_trans k4 (le_of_lt hlt)
        · intro v hv hvd
          rcases List.mem_cons.mp hv with rfl | hv2
          · exact k4
          · exact k5 v hv2 hvd
      · rw [if_neg hlt]
        obtain ⟨k1, k2, k3, k4, k5⟩ := ih acc h1 h2
        refine ⟨k1, k2, ?_, k4, ?_⟩
        · rcases k3 with k3 | k3
          · exact Or.inl k3
          · exact Or.inr (List.mem_cons_of_mem a k3)
        · intro v hv hvd
          rcases List.mem_cons.mp hv with rfl | hv2
          · exact le_trans k4 (not_lt.mp hlt)
          · exact k5 v hv2 hvd

theorem misMin_spec (gap : V → ℤ) (dep : List V) (u : V)
    (hu : u ∉ dep) (nbrs : List V) :
    (misMin gap dep u nbrs).2 = gap (misMin gap dep u nbrs).1 ∧
    (misMin gap dep u nbrs).1 ∉ dep ∧
    ((misMin gap dep u nbrs).1 = u ∨ (misMin gap dep u nbrs).1 ∈ nbrs) ∧
    (misMin gap dep u nbrs).2 ≤ gap u ∧
    (∀ v ∈ nbrs, v ∉ dep → (misMin gap dep u nbrs).2 ≤ gap v) := by
  have h := misMin_fold gap dep nbrs (u, gap u) rfl hu
  exact ⟨h.1, h.2.1, h.2.2.1, h.2.2.2.1, h.2.2.2.2⟩

theorem misStep_dep_mono (g : UGraph V) (weight : V → ℤ)
    (st : MisState V) (u : V) {x : V} (h : x ∈ st.dep) :
    x ∈ (misStep g weight st u).dep := by
  by_cases h1 : u ∈ st.dep
  · simp only [misStep, if_pos h1]
    exact h
  · by_cases h2 : u ∈ st.ind
    · simp only [misStep, if_neg h1, if_pos h2]
      exact h
    · simp only [misStep, if_neg h1, if_neg h2]
      split
      · exact (mem_foldl_insertS _ _).mpr
          (Or.inl (mem_insertS_of_mem _ h))
      · exact (mem_foldl_insertS _ _).mpr
          (Or.inl (mem_insertS_of_mem _ h))

theorem misStep_gap_inv (g : UGraph V) (weight : V → ℤ)
    (hadj : ∀ u, (g.adj u).Nodup) (st : MisState V) (u : V)
    (hA : ∀ x, st.gap x ≤ weight x)
    (hB : ∀ x, x ∉ st.dep → 0 ≤ st.gap x) :
    (∀ x, (misStep g weight st u).gap x ≤ weight x) ∧
    (∀ x, x ∉ (misStep g weight st u).dep →
      0 ≤ (misStep g weight st u).gap x) ∧
    (∀ x, (misStep g weight st u).gap x ≤ st.gap x) := by
  by_cases h1 : u ∈ st.dep
  · simp only [misStep, if_pos h1]
    exact ⟨hA, hB, fun x => le_refl _⟩
  · by_cases h2 : u ∈ st.ind
    · simp only [misStep, if_neg h1, if_pos h2]
      exact ⟨hA, hB, fun x => le_refl _⟩
    · obtain ⟨hval, hmdep, _, _, hle_nbrs⟩ :=
        misMin_spec st.gap st.dep u h1 (g.adj u)
      have hδ : 0 ≤ (misMin st.gap st.dep u (g.adj u)).2 :=
        hval ▸ hB _ hmdep
      by_cases h3 : (misMin st.gap st.dep u (g.adj u)).1 = u
      · simp only [misStep, if_neg h1, if_neg h2, if_pos h3]
        refine ⟨hA, ?_, fun x => le_refl _⟩
        intro x hx
        apply hB
        intro hxd
        exact hx ((mem_foldl_insertS _ _).mpr
          (Or.inl (mem_insertS_of_mem _ hxd)))
      · simp only [misStep, if_neg h1, if_neg h2, if_neg h3]
        have hgap : ∀ z,
            ((g.adj u).foldl (fun h v => upd h v
              (h v - (misMin st.gap st.dep u (g.adj u)).2)) st.gap) z =
            if z ∈ g.adj u then
              st.gap z - (misMin st.gap st.dep u (g.adj u)).2
            else st.gap z :=
          fun z => foldl_gapSub _ _ (hadj u) _ _
        refine ⟨?_, ?_, ?_⟩
        · intro x
          rw [hgap x]
          split
          · have := hA x
            omega
          · exact hA x
        · intro x hx
          have hxd : x ∉ st.dep := by
            intro hxd
            exact hx ((mem_foldl_insertS _ _).mpr
              (Or.inl (mem_insertS_of_mem _ hxd)))
          rw [hgap x]
          split
          · rename_i hmem
            have := hle_nbrs x hmem hxd
            omega
          · exact hB x hxd
        · intro x
          rw [hgap x]
          split
          · omega
          · exact le_refl _

theorem misRun_gap_inv (g : UGraph V) (weight : V → ℤ)
    (hadj : ∀ u, (g.adj u).Nodup) :
    ∀ (l : List V) (st : MisState V),
      (∀ x, st.gap x ≤ weight x) →
      (∀ x, x ∉ st.dep → 0 ≤ st.gap x) →
      (∀ x, (l.foldl (misStep g weight) st).gap x ≤ weight x) ∧
      (∀ x, x ∉ (l.foldl (misStep g weight) st).dep →
        0 ≤ (l.foldl (misStep g weight) st).gap x) ∧
      (∀ x, (l.foldl (misStep g weight) st).gap x ≤ st.gap x) := by
  intro l
  induction l with
  | nil =>
    intro st hA hB
    exact ⟨hA, hB, fun x => le_refl _⟩
  | cons a t ih =>
    intro st hA hB
    have hstep := misStep_gap_inv g weight hadj st a hA hB
    have hrest := ih (misStep g weight st a) hstep.1 hstep.2.1
    rw [List.foldl_cons]
    exact ⟨hrest.1, hrest.2.1,
      fun x => le_trans (hrest.2.2 x) (hstep.2.2 x)⟩

/-- C4, amended: with nonnegative weights the gap map satisfies
`0 ≤ gap[x] ≤ weight[x]` at every step of `pd_cover` (provided each
violating set is duplicate-free, which the cycle producers can violate)
and of `min_vertex_cover_fast`, and gaps only decrease over either run;
in `min_maximal_independant_set` every gap stays at most the weight and
is non-increasing, and the gaps of non-dependent nodes stay nonnegative,
but a dependent node's gap can become negative (the counterexample),
because the dual adjustment subtracts from all neighbors of the scanned
node including dependent ones; `min_maximal_matching` is likewise
excluded from the blanket nonnegativity claim. -/
theorem gap_map_invariants (weight : V → ℤ) (hw : ∀ x, 0 ≤ weight x) :
    (∀ (pre post : List (List V)) (soln : List V),
      (∀ S ∈ pre ++ post, S.Nodup) →
      (∀ x, 0 ≤ (pd_cover pre weight soln).gap x ∧
        (pd_cover pre weight soln).gap x ≤ weight x) ∧
      (∀ x, (pd_cover (pre ++ post) weight soln).gap x ≤
        (pd_cover pre weight soln).gap x)) ∧
    (∀ (pre post : List (V × V)) (cs : List V),
      (∀ x, 0 ≤ (min_vertex_cover_fast pre weight cs).gap x ∧
        (min_vertex_cover_fast pre weight cs).gap x ≤ weight x) ∧
      (∀ x, (min_vertex_cover_fast (pre ++ post) weight cs).gap x ≤
        (min_vertex_cover_fast pre weight cs).gap x)) ∧
    (∀ (g : UGraph V), (∀ u, (g.adj u).Nodup) →
      ∀ (ind dep : List V),
      (∀ x, (min_maximal_independant_set g weight ind dep).gap x
          ≤ weight x) ∧
      (∀ x, x ∉ (min_maximal_independant_set g weight ind dep).dep →
        0 ≤ (min_maximal_independant_set g weight ind dep).gap x) ∧
      (∀ pre post, g.nodes = pre ++ post → ∀ x,
        (min_maximal_independant_set g weight ind dep).gap x ≤
          (pre.foldl (misStep g weight) ⟨weight, ind, dep, 0, 0⟩).gap x)) := by
  have hinit : ∀ x, 0 ≤ weight x ∧ weight x ≤ weight x :=
    fun x => ⟨hw x, le_refl _⟩
  refine ⟨?_, ?_, ?_⟩
  · intro pre post soln hnd
    have hpre := pdRun_gap_inv weight pre ⟨weight, soln, 0, 0⟩
      (fun S hS => hnd S (List.mem_append_left post hS)) hinit
    refine ⟨hpre.1, ?_⟩
    have hpost := pdRun_gap_inv weight post
      (pre.foldl (pdStep weight) ⟨weight, soln, 0, 0⟩)
      (fun S hS => hnd S (List.mem_append_right pre hS)) hpre.1
    intro x
    rw [pd_cover, List.foldl_append]
    exact hpost.2 x
  · intro pre post cs
    have hpre := fastRun_gap_inv weight hw pre ⟨weight, cs, 0, 0⟩ hinit
    refine ⟨hpre.1, ?_⟩
    have hpost := fastRun_gap_inv weight hw post
      (pre.foldl (fastStep weight) ⟨weight, cs, 0, 0⟩) hpre.1
    intro x
    rw [min_vertex_cover_fast, List.foldl_append]
    exact hpost.2 x
  · intro g hadj ind dep
    have hrun := misRun_gap_inv g weight hadj g.nodes
      ⟨weight, ind, dep, 0, 0⟩ (fun x => le_refl _) (fun x _ => hw x)
    refine ⟨hrun.1, hrun.2.1, ?_⟩
    intro pre post hsplit x
    have hpre := misRun_gap_inv g weight hadj pre
      ⟨weight, ind, dep, 0, 0⟩ (fun x => le_refl _) (fun x _ => hw x)
    have hpost := misRun_gap_inv g weight hadj post
      (pre.foldl (misStep g weight) ⟨weight, ind, dep, 0, 0⟩)
      hpre.1 hpre.2.1
    rw [min_maximal_independant_set, hsplit, List.foldl_append]
    exact hpost.2.2 x

/-- Witness for the amended C4 on small concrete inputs (unit weights;
the path producer, the path edges, and the triangle graph). -/
theorem gap_map_invariants_witness :
    (0 ≤ (pd_cover [[0, 1]] unitW []).gap 0 ∧
      (pd_cover [[0, 1]] unitW []).gap 0 ≤ unitW 0) ∧
    (0 ≤ (min_vertex_cover_fast pathE3 unitW []).gap 1 ∧
      (min_vertex_cover_fast pathE3 unitW []).gap 1 ≤ unitW 1) ∧
    (min_maximal_independant_set triG unitW [] []).gap 1 ≤ unitW 1 := by
  have hw : ∀ x : ℕ, 0 ≤ unitW x := by
    intro x
    norm_num [unitW]
  have hadj : ∀ u, (triG.adj u).Nodup := by
    intro u
    by_cases h0 : u = 0
    · subst h0; decide
    · by_cases h1 : u = 1
      · subst h1; decide
      · by_cases h2 : u = 2
        · subst h2; decide
        · simp [triG, h0, h1, h2]
  have h := gap_map_invariants unitW hw
  refine ⟨?_, ?_, ?_⟩
  · exact ((h.1 [[0, 1]] [] [] (by decide)).1 0)
  · exact ((h.2.1 pathE3 [] []).1 1)
  · exact (h.2.2 triG hadj [] []).1 1

/-- C5, counterexample: on two disjoint triangles, `min_cycle_cover`
returns after covering a single node of the first triangle, although
invoking the violation producer again on the returned solution set still
yields a violating cycle — the loop does not run until a producer
invocation comes back empty. -/
theorem cycle_cover_stops_early :
    (min_cycle_cover twoTri unitW []).soln = [0] ∧
    cycleViolate twoTri ((min_cycle_cover twoTri unitW []).soln) ≠ [] := by
  refine ⟨by decide, by decide⟩

/-- C7, counterexample: on the spec's parent chain (1 to 0, 2 to 1, 3 to
2) with witness endpoints 1 and 3, the walk described by the claim
yields [1, 3, 2], but `_construct_cycle` yields [0, 1, 3, 2, 1, 0] —
the code keeps walking one node past the equal-depth point and the
meeting node 0 enters the sequence twice rather than being prepended
exactly once. -/
theorem construct_cycle_differs_from_described_walk :
    _construct_cycle chainInfo 1 3 = some [0, 1, 3, 2, 1, 0] ∧
    constructCycleSpec chainInfo 1 3 = some [1, 3, 2] ∧
    _construct_cycle chainInfo 1 3 ≠ constructCycleSpec chainInfo 1 3 ∧
    List.count 0 [0, 1, 3, 2, 1, 0] = 2 := by
  refine ⟨by decide, by decide, by decide, by decide⟩

/-- C7, amended: the code's reconstruction on the spec's example returns
[0, 1, 3, 2, 1, 0], which has length at least 2 and spans the path
between the witness endpoints 1 and 3. -/
theorem construct_cycle_chain_example :
    _construct_cycle chainInfo 1 3 = some [0, 1, 3, 2, 1, 0] ∧
    2 ≤ [0, 1, 3, 2, 1, 0].length ∧
    1 ∈ [0, 1, 3, 2, 1, 0] ∧ 2 ∈ [0, 1, 3, 2, 1, 0] ∧
    3 ∈ [0, 1, 3, 2, 1, 0] := by
  refine ⟨by decide, by decide, by decide, by decide, by decide⟩

/-- C8, counterexample: on the single-edge graph 0-1 with weights 2, 1
and the pre-seeded independent set containing 0, the returned set
contains both endpoints 0 and 1 of the edge, so it is not pairwise
non-adjacent. -/
theorem mis_preseeded_not_independent :
    0 ∈ (min_maximal_independant_set edgeG edgeW [0] []).ind ∧
    1 ∈ (min_maximal_independant_set edgeG edgeW [0] []).ind ∧
    1 ∈ edgeG.adj 0 := by
  refine ⟨by decide, by decide, by decide⟩

/-- C10, counterexample: on `mmH2` (nets 20 and 21 sharing node 7, net
21 pre-seeded in the match set), the run selects the pre-seeded net 21
as the minimum-gap alternative while scanning net 20, so the returned
cost is 1 (the weight of the pre-seeded net) even though the match set
is unchanged and no net was newly selected. -/
theorem matching_charges_preseeded_net :
    (min_maximal_matching mmH2 mmW2 [21] []).matchset = [21] ∧
    (min_maximal_matching mmH2 mmW2 [21] []).primal = mmW2 21 ∧
    (min_maximal_matching mmH2 mmW2 [21] []).primal ≠ 0 := by
  refine ⟨by decide, by decide, by decide⟩

/-! Independence and maximality of `min_maximal_independant_set` with
empty pre-seeded sets, for the amended C8. -/

theorem adjOf_symm_aux (edges : List (V × V)) (a b : V)
    (h : a ∈ adjOf edges b) : b ∈ adjOf edges a := by
  unfold adjOf at h ⊢
  rw [List.mem_filterMap] at h ⊢
  obtain ⟨e, he, hfe⟩ := h
  refine ⟨e, he, ?_⟩
  by_cases h1 : e.1 = b
  · rw [if_pos h1] at hfe
    have h2 : e.2 = a := Option.some.inj hfe
    by_cases hba : e.1 = a
    · rw [if_pos hba, h2]
      rw [h1] at hba
      rw [hba]
    · rw [if_neg hba, if_pos h2, h1]
  · rw [if_neg h1] at hfe
    by_cases h2 : e.2 = b
    · rw [if_pos h2] at hfe
      have h3 : e.1 = a := Option.some.inj hfe
      rw [if_pos h3, h2]
    · rw [if_neg h2] at hfe
      cases hfe

theorem misStep_ind_mono (g : UGraph V) (weight : V → ℤ)
    (st : MisState V) (u : V) {x : V} (h : x ∈ st.ind) :
    x ∈ (misStep g weight st u).ind := by
  by_cases h1 : u ∈ st.dep
  · simp only [misStep, if_pos h1]
    exact h
  · by_cases h2 : u ∈ st.ind
    · simp only [misStep, if_neg h1, if_pos h2]
      exact h
    · simp only [misStep, if_neg h1, if_neg h2]
      split
      · exact mem_insertS_of_mem _ h
      · exact mem_insertS_of_mem _ h

theorem misStep_maximal_inv (g : UGraph V) (weight : V → ℤ)
    (hsym : ∀ a b, a ∈ g.adj b ↔ b ∈ g.adj a)
    (st : MisState V) (u : V)
    (i1 : ∀ a ∈ st.ind, ∀ b ∈ g.adj a, b ∈ st.dep)
    (i3 : ∀ a ∈ st.ind, ∀ b ∈ st.ind, a ≠ b → b ∉ g.adj a)
    (i4 : ∀ x ∈ st.dep, x ∈ st.ind ∨ ∃ v, v ∈ g.adj x ∧ v ∈ st.ind) :
    (∀ a ∈ (misStep g weight st u).ind,
      ∀ b ∈ g.adj a, b ∈ (misStep g weight st u).dep) ∧
    (∀ a ∈ (misStep g weight st u).ind,
      ∀ b ∈ (misStep g weight st u).ind, a ≠ b → b ∉ g.adj a) ∧
    (∀ x ∈ (misStep g weight st u).dep,
      x ∈ (misStep g weight st u).ind ∨
        ∃ v, v ∈ g.adj x ∧ v ∈ (misStep g weight st u).ind) ∧
    (u ∈ (misStep g weight st u).ind ∨
      u ∈ (misStep g weight st u).dep) := by
  by_cases h1 : u ∈ st.dep
  · simp only [misStep, if_pos h1]
    exact ⟨i1, i3, i4, Or.inr h1⟩
  · by_cases h2 : u ∈ st.ind
    · simp only [misStep, if_neg h1, if_pos h2]
      exact ⟨i1, i3, i4, Or.inl h2⟩
    · obtain ⟨_, hmdep, hmmem, _, _⟩ :=
        misMin_spec st.gap st.dep u h1 (g.adj u)
      have hind : (misStep g weight st u).ind =
          insertS st.ind (misMin st.gap st.dep u (g.adj u)).1 := by
        simp only [misStep, if_neg h1, if_neg h2]
        split <;> rfl
      have hdep : (misStep g weight st u).dep =
          (g.adj (misMin st.gap st.dep u (g.adj u)).1).foldl insertS
            (insertS st.dep (misMin st.gap st.dep u (g.adj u)).1) := by
        simp only [misStep, if_neg h1, if_neg h2]
        split <;> rfl
      have hdep_mem : ∀ x, x ∈ (misStep g weight st u).dep ↔
          x ∈ st.dep ∨ x = (misMin st.gap st.dep u (g.adj u)).1 ∨
            x ∈ g.adj (misMin st.gap st.dep u (g.adj u)).1 := by
        intro x
        rw [hdep, mem_foldl_insertS, mem_insertS]
        tauto
      have hind_mem : ∀ x, x ∈ (misStep g weight st u).ind ↔
          x = (misMin st.gap st.dep u (g.adj u)).1 ∨ x ∈ st.ind := by
        intro x
        rw [hind, mem_insertS]
      have hnotadj : ∀ a ∈ st.ind,
          (misMin st.gap st.dep u (g.adj u)).1 ∉ g.adj a := by
        intro a ha hmem
        exact hmdep (i1 a ha _ hmem)
      refine ⟨?_, ?_, ?_, ?_⟩
      · intro a ha b hb
        rcases (hind_mem a).mp ha with ha1 | ha2
        · rw [ha1] at hb
          exact (hdep_mem b).mpr (Or.inr (Or.inr hb))
        · exact (hdep_mem b).mpr (Or.inl (i1 a ha2 b hb))
      · intro a ha b hb hne
        rcases (hind_mem a).mp ha with ha1 | ha2
        · rcases (hind_mem b).mp hb with hb1 | hb2
          · rw [ha1, hb1] at hne
            exact absurd rfl hne
          · intro hmem
            rw [ha1] at hmem
            exact hnotadj b hb2 ((hsym b _).mp hmem)
        · rcases (hind_mem b).mp hb with hb1 | hb2
          · rw [hb1]
            exact hnotadj a ha2
          · exact i3 a ha2 b hb2 hne
      · intro x hx
        rcases (hdep_mem x).mp hx with hx2 | hx1 | hx2
        · rcases i4 x hx2 with h | ⟨v, hv1, hv2⟩
          · exact Or.inl ((hind_mem x).mpr (Or.inr h))
          · exact Or.inr ⟨v, hv1, (hind_mem v).mpr (Or.inr hv2)⟩
        · exact Or.inl ((hind_mem x).mpr (Or.inl hx1))
        · refine Or.inr ⟨(misMin st.gap st.dep u (g.adj u)).1,
            (hsym _ x).mpr hx2, (hind_mem _).mpr (Or.inl rfl)⟩
      · rcases hmmem with h | h
        · exact Or.inl ((hind_mem u).mpr (Or.inl h.symm))
        · exact Or.inr ((hdep_mem u).mpr
            (Or.inr (Or.inr ((hsym u _).mpr h))))

theorem misRun_ind_mono (g : UGraph V) (weight : V → ℤ) :
    ∀ (l : List V) (st : MisState V) {x : V}, x ∈ st.ind →
      x ∈ (l.foldl (misStep g weight) st).ind := by
  intro l
  induction l with
  | nil => intro st x h; exact h
  | cons a t ih =>
    intro st x h
    rw [List.foldl_cons]
    exact ih _ (misStep_ind_mono _ _ _ _ h)

theorem misRun_dep_mono (g : UGraph V) (weight : V → ℤ) :
    ∀ (l : List V) (st : MisState V) {x : V}, x ∈ st.dep →
      x ∈ (l.foldl (misStep g weight) st).dep := by
  intro l
  induction l with
  | nil => intro st x h; exact h
  | cons a t ih =>
    intro st x h
    rw [List.foldl_cons]
    exact ih _ (misStep_dep_mono _ _ _ _ h)

theorem misRun_maximal_inv (g : UGraph V) (weight : V → ℤ)
    (hsym : ∀ a b, a ∈ g.adj b ↔ b ∈ g.adj a) :
    ∀ (l : List V) (st : MisState V),
      (∀ a ∈ st.ind, ∀ b ∈ g.adj a, b ∈ st.dep) →
      (∀ a ∈ st.ind, ∀ b ∈ st.ind, a ≠ b → b ∉ g.adj a) →
      (∀ x ∈ st.dep, x ∈ st.ind ∨ ∃ v, v ∈ g.adj x ∧ v ∈ st.ind) →
      (∀ a ∈ (l.foldl (misStep g weight) st).ind,
        ∀ b ∈ g.adj a, b ∈ (l.foldl (misStep g weight) st).dep) ∧
      (∀ a ∈ (l.foldl (misStep g weight) st).ind,
        ∀ b ∈ (l.foldl (misStep g weight) st).ind,
        a ≠ b → b ∉ g.adj a) ∧
      (∀ x ∈ (l.foldl (misStep g weight) st).dep,
        x ∈ (l.foldl (misStep g weight) st).ind ∨
          ∃ v, v ∈ g.adj x ∧ v ∈ (l.foldl (misStep g weight) st).ind) ∧
      (∀ u ∈ l, u ∈ (l.foldl (misStep g weight) st).ind ∨
        u ∈ (l.foldl (misStep g weight) st).dep) := by
  intro l
  induction l with
  | nil =>
    intro st i1 i3 i4
    refine ⟨i1, i3, i4, ?_⟩
    intro u hu
    cases hu
  | cons a t ih =>
    intro st i1 i3 i4
    obtain ⟨j1, j3, j4, jmem⟩ := misStep_maximal_inv g weight hsym st a
      i1 i3 i4
    obtain ⟨k1, k3, k4, kmem⟩ := ih (misStep g weight st a) j1 j3 j4
    rw [List.foldl_cons]
    refine ⟨k1, k3, k4, ?_⟩
    intro u hu
    rcases List.mem_cons.mp hu with rfl | hu2
    · rcases jmem with h | h
      · exact Or.inl (misRun_ind_mono g weight t _ h)
      · exact Or.inr (misRun_dep_mono g weight t _ h)
    · exact kmem u hu2

/-- C8, amended: on an undirected graph (symmetric neighbor relation)
and with empty pre-seeded independent and dependent sets, the set
returned by `min_maximal_independant_set` is pairwise non-adjacent, and
it is maximal: every node of the graph not in the returned set has a
neighbor in the returned set.  (With a pre-seeded independent set both
properties can fail, as the counterexample shows.) -/
theorem mis_independent_and_maximal (g : UGraph V) (weight : V → ℤ)
    (hsym : ∀ a b, a ∈ g.adj b ↔ b ∈ g.adj a) :
    (∀ a ∈ (min_maximal_independant_set g weight [] []).ind,
      ∀ b ∈ (min_maximal_independant_set g weight [] []).ind,
      a ≠ b → b ∉ g.adj a) ∧
    (∀ u ∈ g.nodes,
      u ∉ (min_maximal_independant_set g weight [] []).ind →
      ∃ v, v ∈ g.adj u ∧
        v ∈ (min_maximal_independant_set g weight [] []).ind) := by
  have h := misRun_maximal_inv g weight hsym g.nodes
    ⟨weight, [], [], 0, 0⟩ (by intro a ha; cases ha)
    (by intro a ha; cases ha) (by intro x hx; cases hx)
  refine ⟨h.2.1, ?_⟩
  intro u hu hind
  rcases h.2.2.2 u hu with h2 | h2
  · exact absurd h2 hind
  · rcases h.2.2.1 u h2 with h3 | h3
    · exact absurd h3 hind
    · exact h3

/-- Witness for the amended C8 on the triangle built from its edge
list. -/
theorem mis_independent_and_maximal_witness :
    (∀ a ∈ (min_maximal_independant_set triE unitW [] []).ind,
      ∀ b ∈ (min_maximal_independant_set triE unitW [] []).ind,
      a ≠ b → b ∉ triE.adj a) ∧
    (∀ u ∈ triE.nodes,
      u ∉ (min_maximal_independant_set triE unitW [] []).ind →
      ∃ v, v ∈ triE.adj u ∧
        v ∈ (min_maximal_independant_set triE unitW [] []).ind) :=
  mis_independent_and_maximal triE unitW
    (fun a b => ⟨adjOf_symm_aux triEdges a b, adjOf_symm_aux triEdges b a⟩)

/-! BFS-table lemmas for C6. -/

theorem lookupInfo_cons (a : V × V × ℤ) (info : Info V) (x : V) :
    lookupInfo (a :: info) x =
      if x = a.1 then some a.2 else lookupInfo info x := by
  by_cases hx : x = a.1
  · subst hx
    simp [lookupInfo, List.find?]
  · have hne : (decide (a.1 = x)) = false := by
      simp
      exact fun h => hx h.symm
    simp [lookupInfo, List.find?, hne, hx]

theorem lookupInfo_isSome_of_mem {info : Info V} {e : V × V × ℤ}
    (h : e ∈ info) : (lookupInfo info e.1).isSome := by
  induction info with
  | nil => cases h
  | cons a t ih =>
    rw [lookupInfo_cons]
    rcases List.mem_cons.mp h with rfl | h2
    · rw [if_pos rfl]
      rfl
    · by_cases hx : e.1 = a.1
      · rw [if_pos hx]
        rfl
      · rw [if_neg hx]
        exact ih h2

theorem entryOk_cons (n : ℤ) (info : Info V) (a : V × V × ℤ)
    (hfresh : lookupInfo info a.1 = none) {e : V × V × ℤ}
    (he : e ∈ info) (hok : entryOk n info e = true) :
    entryOk n (a :: info) e = true := by
  unfold entryOk at hok ⊢
  rw [lookupInfo_cons]
  by_cases hpar : e.2.1 = a.1
  · exfalso
    rw [Bool.or_eq_true] at hok
    rcases hok with hok | hok
    · rw [Bool.and_eq_true, decide_eq_true_eq, decide_eq_true_eq] at hok
      have hs := lookupInfo_isSome_of_mem he
      rw [← hok.1, hpar, hfresh] at hs
      cases hs
    · rw [hpar, hfresh] at hok
      cases hok
  · rw [if_neg hpar]
    exact hok

theorem infoInv_insert (n : ℤ) (info : Info V) (c parent : V)
    (dc : ℤ) (hfresh : lookupInfo info c = none)
    (hpar : ∃ s, lookupInfo info parent = some (s, dc + 1))
    (hinv : infoInv n info = true) :
    infoInv n ((c, parent, dc) :: info) = true := by
  obtain ⟨s, hs⟩ := hpar
  rw [infoInv, List.all_eq_true]
  intro e he
  rcases List.mem_cons.mp he with rfl | he2
  · unfold entryOk
    rw [Bool.or_eq_true]
    right
    have hpc : parent ≠ c := by
      intro h
      rw [h, hfresh] at hs
      cases hs
    show (match lookupInfo ((c, parent, dc) :: info) parent with
      | some pd => decide (dc = pd.2 - 1)
      | none => false) = true
    rw [lookupInfo_cons, if_neg hpc, hs]
    simp
  · rw [infoInv, List.all_eq_true] at hinv
    exact entryOk_cons n info (c, parent, dc) hfresh he2 (hinv e he2)

theorem infoInv_seed (n : ℤ) (s : V) : infoInv n [(s, s, n)] = true := by
  simp [infoInv, entryOk]

theorem scanChildren_inv (n : ℤ) (coverset : List V) (succ parent : V)
    (depthNow : ℤ) :
    ∀ (cs : List V) (info : Info V) (q : List V),
      infoInv n info = true →
      lookupInfo info parent = some (succ, depthNow) →
      (∀ iq, scanChildren coverset succ parent depthNow cs info q =
          Sum.inl iq →
        infoInv n iq.1 = true ∧
          lookupInfo iq.1 parent = some (succ, depthNow)) ∧
      (∀ ic, scanChildren coverset succ parent depthNow cs info q =
          Sum.inr ic → infoInv n ic.1 = true) := by
  intro cs
  induction cs with
  | nil =>
    intro info q hinv hpar
    constructor
    · intro iq h
      cases h
      exact ⟨hinv, hpar⟩
    · intro ic h
      cases h
  | cons c rest ih =>
    intro info q hinv hpar
    by_cases hcov : c ∈ coverset
    · have hred : scanChildren coverset succ parent depthNow
          (c :: rest) info q =
          scanChildren coverset succ parent depthNow rest info q := by
        simp [scanChildren, hcov]
      rw [hred]
      exact ih info q hinv hpar
    · by_cases hvis : (lookupInfo info c).isSome
      · by_cases hsc : succ = c
        · have hred : scanChildren coverset succ parent depthNow
              (c :: rest) info q =
              scanChildren coverset succ parent depthNow rest info q := by
            simp [scanChildren, hcov, hvis, hsc]
          rw [hred]
          exact ih info q hinv hpar
        · have hred : scanChildren coverset succ parent depthNow
              (c :: rest) info q = Sum.inr (info, c) := by
            simp [scanChildren, hcov, hvis, hsc]
          rw [hred]
          constructor
          · intro iq h
            cases h
          · intro ic h
            cases h
            exact hinv
      · have hfresh : lookupInfo info c = none :=
          Option.not_isSome_iff_eq_none.mp hvis
        have hred : scanChildren coverset succ parent depthNow
            (c :: rest) info q =
            scanChildren coverset succ parent depthNow rest
              ((c, parent, depthNow - 1) :: info) (q ++ [c]) := by
          simp [scanChildren, hcov, hvis]
        rw [hred]
        have hinv2 : infoInv n ((c, parent, depthNow - 1) :: info)
            = true := by
          apply infoInv_insert n info c parent (depthNow - 1) hfresh
          · exact ⟨succ, by rw [sub_add_cancel]; exact hpar⟩
          · exact hinv
        have hpc : parent ≠ c := by
          intro h
          rw [h, hfresh] at hpar
          cases hpar
        have hpar2 : lookupInfo ((c, parent, depthNow - 1) :: info)
            parent = some (succ, depthNow) := by
          rw [lookupInfo_cons, if_neg hpc]
          exact hpar
        exact ih _ _ hinv2 hpar2

theorem bfsLoop_cons (g : UGraph V) (coverset : List V) (f : ℕ)
    (p : V) (rest : List V) (info : Info V) (sd : V × ℤ)
    (hl : lookupInfo info p = some sd) :
    bfsLoop g coverset (f + 1) (p :: rest) info =
      match scanChildren coverset sd.1 p sd.2 (g.adj p) info rest with
      | Sum.inl iq => bfsLoop g coverset f iq.2 iq.1
      | Sum.inr ic => some (ic.1, p, ic.2) := by
  rw [bfsLoop, hl]

theorem bfsLoop_inv (g : UGraph V) (coverset : List V) (n : ℤ) :
    ∀ (fuel : ℕ) (q : List V) (info : Info V),
      infoInv n info = true →
      ∀ r, bfsLoop g coverset fuel q info = some r →
        infoInv n r.1 = true := by
  intro fuel
  induction fuel with
  | zero =>
    intro q info _ r h
    cases h
  | succ f ih =>
    intro q info hinv r h
    cases q with
    | nil => cases h
    | cons p rest =>
      cases hl : lookupInfo info p with
      | none =>
        rw [bfsLoop, hl] at h
        cases h
      | some sd =>
        rw [bfsLoop_cons g coverset f p rest info sd hl] at h
        obtain ⟨hinl, hinr⟩ := scanChildren_inv n coverset sd.1 p sd.2
          (g.adj p) info rest hinv hl
        cases hsc : scanChildren coverset sd.1 p sd.2 (g.adj p) info
            rest with
        | inl iq =>
          rw [hsc] at h
          exact ih iq.2 iq.1 (hinl iq hsc).1 r h
        | inr ic =>
          rw [hsc] at h
          obtain rfl := Option.some.inj h
          exact hinr ic hsc

theorem generic_bfs_go_inv (g : UGraph V) (coverset : List V) :
    ∀ (l : List V) (r : Info V × V × V),
      _generic_bfs_cycle.go g coverset l = some r →
      infoInv (g.nodes.length : ℤ) r.1 = true := by
  intro l
  induction l with
  | nil =>
    intro r h
    cases h
  | cons s rest ih =>
    intro r h
    rw [_generic_bfs_cycle.go] at h
    by_cases hc : s ∈ coverset
    · rw [if_pos hc] at h
      exact ih r h
    · rw [if_neg hc] at h
      cases hb : bfsLoop g coverset (g.nodes.length + 1) [s]
          [(s, s, (g.nodes.length : ℤ))] with
      | some w =>
        rw [hb] at h
        obtain rfl := Option.some.inj h
        exact bfsLoop_inv g coverset _ _ _ _
          (infoInv_seed _ s) w hb
      | none =>
        rw [hb] at h
        exact ih r h

theorem generic_bfs_inv (g : UGraph V) (coverset : List V)
    (r : Info V × V × V) (h : _generic_bfs_cycle g coverset = some r) :
    infoInv (g.nodes.length : ℤ) r.1 = true := by
  rw [_generic_bfs_cycle] at h
  exact generic_bfs_go_inv g coverset g.nodes r h

/-- C6: whenever the BFS cycle finder returns a witness
`(info, parent, child)`, the table `info` is a BFS tree seeded at its
source with depth equal to the node count and recording, for every
other visited node, a depth exactly one less than its parent's; and the
odd-cycle producer turns the witness into a violating set exactly when
`(depth[parent] - depth[child]) % 2 == 0`, yielding nothing
otherwise. -/
theorem odd_cycle_parity_acceptance (g : UGraph V) (cs : List V) :
    (∀ info p c, _generic_bfs_cycle g cs = some (info, p, c) →
      infoInv (g.nodes.length : ℤ) info = true ∧
      oddCycleViolate g cs =
        (if (depthOf info p - depthOf info c) % 2 = 0 then
          match _construct_cycle info p c with
          | none => []
          | some cyc => [cyc]
        else [])) ∧
    (_generic_bfs_cycle g cs = none → oddCycleViolate g cs = []) := by
  constructor
  · intro info p c h
    refine ⟨generic_bfs_inv g cs (info, p, c) h, ?_⟩
    rw [oddCycleViolate, h]
  · intro h
    rw [oddCycleViolate, h]

/-- Witness for C6 on the triangle: the BFS from node 0 returns the
witness edge (1, 2) with the recorded table, whose entries satisfy the
seeding and depth-decrement conditions, and the parity test accepts. -/
theorem odd_cycle_parity_acceptance_witness :
    infoInv ((triG.nodes.length : ℕ) : ℤ)
        [((2 : ℕ), 0, 2), (1, 0, 2), (0, 0, 3)] = true ∧
    oddCycleViolate triG [] =
      (if (depthOf [((2 : ℕ), 0, 2), (1, 0, 2), (0, 0, 3)] 1 -
          depthOf [((2 : ℕ), 0, 2), (1, 0, 2), (0, 0, 3)] 2) % 2 = 0 then
        match _construct_cycle
            [((2 : ℕ), 0, 2), (1, 0, 2), (0, 0, 3)] 1 2 with
        | none => []
        | some cyc => [cyc]
      else []) :=
  (odd_cycle_parity_acceptance triG []).1
    [((2 : ℕ), 0, 2), (1, 0, 2), (0, 0, 3)] 1 2 (by decide)

end Netlistx
